import Mathlib

/-!
Verification of the Refract reactive-engine specification against the
repository's source.  The repository is documentation for the Refract
framework; the executable artefacts under `src/` are the mock engine in
`refract-docs/static/js/refract-mock.js`, the mock in the counter demo, and
the concrete optic constructions embedded in
`refract-docs/docs/core-concepts/optics.md`.  Engine parts that the
documentation describes but that have no implementation under `src/`
(version counters, scheduler, dependency graph, lens/prism setters beyond
the documented snippets, capability-tagged composition) are modelled from
the specification, as marked on each definition.
-/

namespace Refract

/-! ## Cell store (refractions) -/

/-- Modelled from the spec: §3 Cell / §4.1 Cell Store.  The mocks in
`refract-mock.js` and the counter demo store only `value` (the setter is
`(val) => { ref.value = val }`); the version counter, absent from `src/`,
follows the spec: it starts at 0 and is incremented on every write, even
when the written value equals the old one. -/
structure Cell (T : Type) where
  value : T
  version : Nat

/-- `createCell(initial)` allocates a Cell with version 0 (§4.1). -/
def createCell {T : Type} (initial : T) : Cell T :=
  { value := initial, version := 0 }

/-- `read(cell)` returns the current value (§4.1; `ref.value` in the mocks). -/
def read {T : Type} (c : Cell T) : T :=
  c.value

/-- The `next` argument of `write`: either a direct value or an updater
function, per §4.1 `write(cell, next: T | (prev: T) -> T)`. -/
inductive Next (T : Type) where
  | val (v : T)
  | upd (f : T → T)

/-- Modelled from the spec: §4.1 — `write` computes `next` from the previous
value (supporting both direct-value and updater-function forms), stores it,
and increments the version.  The mocks under `src/` implement only the
direct-value form (`ref.value = val`) and carry no version counter. -/
def write {T : Type} (c : Cell T) (n : Next T) : Cell T :=
  { value :=
      match n with
      | Next.val v => v
      | Next.upd f => f c.value
    version := c.version + 1 }

/-! ## Lens -/

/-- Modelled from the spec: §4.3 — a Lens is a total `get` from source to
focus and a total `set` producing a new source.  The documentation's
`createLens` calls in `optics.md` supply only getters; the setter shape is
taken from the spec's Lens row ("always succeeds, writes through to
source"). -/
structure Lens (S A : Type) where
  get : S → A
  set : S → A → S

/-- Modelled from the spec: §4.3 — `compose(outer, inner)` yields a Lens
whose `get` is the functional composition of the two gets and whose `set`
threads the new focus through the outer setter at the inner focus, then
writes the result back through the inner setter. -/
def Lens.comp {S A B : Type} (outer : Lens A B) (inner : Lens S A) : Lens S B :=
  { get := fun s => outer.get (inner.get s)
    set := fun s b => inner.set s (outer.set (inner.get s) b) }

/-- The two-field record of the spec's Lens scenario (§8): source
`{a:1,b:2}` focused on field `a`. -/
structure RecAB where
  a : Int
  b : Int
deriving DecidableEq, Repr

/-- Modelled from the spec: §8 scenario — the Lens over `{a:.., b:..}`
focused on field `a`. -/
def lensA : Lens RecAB Int :=
  { get := fun s => s.a
    set := fun s v => { s with a := v } }

/-! ## Prism (from `docs/core-concepts/optics.md`) -/

/-- The getter of `firstNotificationPrism` in `optics.md`:
`state => state.notifications[0] ?? null` — JavaScript's `?? null` on a
missing index is modelled as `Option`. -/
def prismGet {V : Type} (notifications : List V) : Option V :=
  notifications.get? 0

/-- JavaScript assignment `arr[0] = v`: on an empty array it creates the
element (length becomes 1); on a non-empty array it replaces the head. -/
def setIdx0 {V : Type} : List V → V → List V
  | [], v => [v]
  | _ :: rest, v => v :: rest

/-- The setter of `firstNotificationPrism` in `optics.md`:
`(state, newFirst) => { if (newFirst) state.notifications[0] = newFirst; }`.
The truthiness test `if (newFirst)` on the nullable new focus is modelled as
`Option.isSome`: a `none` (null) new value is a no-op, a present value is
written to index 0. -/
def prismSet {V : Type} (notifications : List V) (newFirst : Option V) : List V :=
  match newFirst with
  | none => notifications
  | some v => setIdx0 notifications v

/-! ## Traversal (from `docs/core-concepts/optics.md`) -/

/-- The source shape of `usersTraversal` in `optics.md`: a state whose
`users` field holds the focused sequence. -/
structure ApiState (A : Type) where
  users : List A
deriving DecidableEq, Repr

/-- The getter of `usersTraversal` in `optics.md`: `s => s.users`. -/
def traversalGet {A : Type} (s : ApiState A) : List A :=
  s.users

/-- The updater of `usersTraversal` in `optics.md`:
`(users, updateFn) => users.map(updateFn)`, written back into the source. -/
def traversalUpdate {A : Type} (s : ApiState A) (f : A → A) : ApiState A :=
  { users := s.users.map f }

/-! ## Capability-tagged optics (read-only propagation) -/

/-- The four optic kinds of §3 / §4.3. -/
inductive OpticKind where
  | lens
  | prism
  | fold
  | traversal
deriving DecidableEq, Repr

/-- The error raised on writing through a read-only optic (§7). -/
inductive OpticError where
  | readOnlyOpticError
deriving DecidableEq, Repr

/-- Modelled from the spec: §4.3 / §9 — a capability-tagged optic: a kind
tag, a total `get`, and an optional setter (`none` for read-only kinds such
as Fold).  No Fold implementation exists under `src/`; only the capability
table in `optics.md` (Fold: read yes, write no). -/
structure WOptic (S A : Type) where
  kind : OpticKind
  get : S → A
  setFn : Option (S → A → S)

/-- Modelled from the spec: a Fold aggregates values read-only — its setter
is absent. -/
def mkFold {S A : Type} (g : S → A) : WOptic S A :=
  { kind := OpticKind.fold, get := g, setFn := none }

/-- Modelled from the spec: a Lens is fully writable. -/
def mkLens {S A : Type} (l : Lens S A) : WOptic S A :=
  { kind := OpticKind.lens, get := l.get, setFn := some l.set }

/-- Modelled from the spec: §7 — calling `set` on an optic without write
capability fails synchronously with `ReadOnlyOpticError`. -/
def trySet {S A : Type} (o : WOptic S A) (s : S) (v : A) : Except OpticError S :=
  match o.setFn with
  | none => Except.error OpticError.readOnlyOpticError
  | some f => Except.ok (f s v)

/-- Modelled from the spec: §4.3 — composing capability-tagged optics: the
`get`s compose functionally; the composite is writable only when BOTH
halves are writable (capability intersection), in which case the setter
threads the new focus through the outer setter then the inner setter. -/
def WOptic.comp {S A B : Type} (outer : WOptic A B) (inner : WOptic S A) : WOptic S B :=
  { kind := outer.kind
    get := fun s => outer.get (inner.get s)
    setFn :=
      match inner.setFn, outer.setFn with
      | some si, some so => some (fun s b => si s (so (inner.get s) b))
      | _, _ => none }

/-- A syntax tree of optic chains over a single state type, used to state
the read-only-propagation property for arbitrary compositions. -/
inductive OpticExpr (U : Type) where
  | lensE (g : U → U) (s : U → U → U)
  | foldE (g : U → U)
  | compE (outer inner : OpticExpr U)

/-- Build the capability-tagged optic an expression denotes. -/
def OpticExpr.build {U : Type} : OpticExpr U → WOptic U U
  | OpticExpr.lensE g s => mkLens { get := g, set := s }
  | OpticExpr.foldE g => mkFold g
  | OpticExpr.compE outer inner => WOptic.comp outer.build inner.build

/-- Whether an optic chain contains a Fold anywhere. -/
def OpticExpr.hasFold {U : Type} : OpticExpr U → Bool
  | OpticExpr.lensE _ _ => false
  | OpticExpr.foldE _ => true
  | OpticExpr.compE outer inner => outer.hasFold || inner.hasFold

/-! ## App registry (from `refract-mock.js` createApp) -/

/-- JavaScript object-property update with string keys, as used by
`registerComponent`'s `this.components[name] = component`: assigning to an
existing key replaces its value in place (keeping its original insertion
position); assigning a fresh key appends it. -/
def setKey {C : Type} : List (String × C) → String → C → List (String × C)
  | [], n, c => [(n, c)]
  | (k, v) :: rest, n, c =>
      if k = n then (k, c) :: rest else (k, v) :: setKey rest n c

/-- The app object of `createApp` in `refract-mock.js`: its `components`
map, modelled as an insertion-ordered association list (JavaScript object
semantics for non-numeric string keys). -/
structure App (C : Type) where
  components : List (String × C)

/-- `createApp()` starts with an empty `components` map. -/
def createApp {C : Type} : App C :=
  { components := [] }

/-- `registerComponent(name, component)` from `refract-mock.js`:
`this.components[name] = component`. -/
def registerComponent {C : Type} (app : App C) (name : String) (comp : C) : App C :=
  { components := setKey app.components name comp }

/-- Run a sequence of registrations in order. -/
def regAll {C : Type} : List (String × C) → App C → App C
  | [], app => app
  | (n, c) :: rest, app => regAll rest (registerComponent app n c)

/-- `mount` from `refract-mock.js`: `Object.values(this.components)` — one
rendered instance per entry of the components map, in map order. -/
def mount {C : Type} (app : App C) : List C :=
  app.components.map Prod.snd

/-- Append an element to an accumulator unless it is already present —
the step function both of first-occurrence deduplication and of JavaScript
object key insertion. -/
def insertNew {α : Type} [DecidableEq α] (acc : List α) (x : α) : List α :=
  if x ∈ acc then acc else acc ++ [x]

/-- First-occurrence deduplication: keeps the first occurrence of each
element, in order.  Used both for the BFS levels of the dependency graph
and for the first-registration order of JavaScript object keys. -/
def dedupFirst {α : Type} [DecidableEq α] (l : List α) : List α :=
  l.foldl insertNew []

/-- JavaScript object key lookup on the insertion-ordered association
list. -/
def lookupKey {C : Type} : List (String × C) → String → Option C
  | [], _ => none
  | (k, v) :: rest, n => if k = n then some v else lookupKey rest n

/-! ## Dependency graph (invalidation) -/

/-- Modelled from the spec: §4.2 — the direct subscribers of a node in the
dependency graph.  An edge `(src, sub)` records that `sub` depends on
`src`. -/
def subsOf (edges : List (Nat × Nat)) (n : Nat) : List Nat :=
  (edges.filter (fun e => e.1 == n)).map Prod.snd

/-- Modelled from the spec: §4.2 — breadth-first traversal of the
dependency graph.  Each level is the deduplicated set of not-yet-visited
subscribers of the previous frontier; levels are appended to the visited
list in order, so nodes closer to the written cell come first.  `fuel`
bounds the number of levels. -/
def bfs (edges : List (Nat × Nat)) : Nat → List Nat → List Nat → List Nat
  | 0, _, visited => visited
  | fuel + 1, frontier, visited =>
      let newNodes :=
        dedupFirst ((frontier.flatMap (subsOf edges)).filter
          (fun x => !(visited.contains x)))
      if newNodes.isEmpty then visited
      else bfs edges fuel newNodes (visited ++ newNodes)

/-- Modelled from the spec: §4.2 — `invalidate(cellId)` returns the
transitive closure of subscribers reachable from `cellId`, in breadth-first
order from the cell outward; the flush recomputes each listed subscriber
exactly once, in this order (§4.4). -/
def invalidate (edges : List (Nat × Nat)) (cellId : Nat) : List Nat :=
  bfs edges (edges.length + 1) [cellId] []

/-! ## Scheduler (batching and flushing) -/

/-- Modelled from the spec: §4.4 Scheduler state.  `cells` holds the cell
values (indexed by cell id); `depth` is the re-entrant batch depth counter;
`dirty` accumulates the dirty cell ids of the open batch; `flushLog`
records, per flush, the snapshot of all cell values that the (single,
all-cells-reading) dependent observed during its recomputation — one log
entry per flush is one recomputation of that dependent. -/
structure SchedState where
  cells : List Int
  depth : Nat
  dirty : List Nat
  flushLog : List (List Int)
deriving DecidableEq, Repr

/-- Mark a cell dirty, without duplicating it in the dirty set. -/
def addDirty (dirty : List Nat) (c : Nat) : List Nat :=
  if dirty.contains c then dirty else dirty ++ [c]

/-- Modelled from the spec: §4.4 — `flush()` is a no-op on an empty dirty
set; otherwise it recomputes the dependent once (logging the cell snapshot
it observed) and clears the dirty set. -/
def flush (s : SchedState) : SchedState :=
  if s.dirty.isEmpty then s
  else { s with flushLog := s.flushLog ++ [s.cells], dirty := [] }

/-- Modelled from the spec: §4.1 — `write` stores the value and marks the
cell dirty; outside an open batch (depth 0) it immediately flushes, inside
an open batch it only marks the cell dirty for later propagation. -/
def writeCell (cid : Nat) (v : Int) (s : SchedState) : SchedState :=
  let s1 := { s with cells := s.cells.set cid v, dirty := addDirty s.dirty cid }
  if s1.depth = 0 then flush s1 else s1

/-- Programs against the scheduler: writes and (arbitrarily nested)
batches. -/
inductive Cmd where
  | write (cid : Nat) (v : Int)
  | batch (body : List Cmd)

mutual
/-- Modelled from the spec: §4.4 — `batch(fn)` increments the depth
counter, runs the body, decrements the counter, and flushes only when the
counter returns to zero (nested batches are flattened: only the outermost
call flushes). -/
def runCmd : Cmd → SchedState → SchedState
  | Cmd.write cid v, s => writeCell cid v s
  | Cmd.batch body, s =>
      let s1 := runCmds body { s with depth := s.depth + 1 }
      let s2 := { s1 with depth := s1.depth - 1 }
      if s2.depth = 0 then flush s2 else s2

/-- Run a command sequence left to right. -/
def runCmds : List Cmd → SchedState → SchedState
  | [], s => s
  | c :: cs, s => runCmds cs (runCmd c s)
end

/-- The write program of the batch-collapsing property: one `write` per
`(cell, value)` pair. -/
def writesOf (ws : List (Nat × Int)) : List Cmd :=
  ws.map (fun p => Cmd.write p.1 p.2)

/-- The cell values after applying a list of writes in order. -/
def applyWrites (init : List Int) (ws : List (Nat × Int)) : List Int :=
  ws.foldl (fun cs p => cs.set p.1 p.2) init

/-- A clean scheduler state: no open batch, nothing dirty, no flush yet. -/
def initState (init : List Int) : SchedState :=
  { cells := init, depth := 0, dirty := [], flushLog := [] }

/-! ## Helper lemmas: deduplication -/

theorem foldl_insertNew_nodup {α : Type} [DecidableEq α] :
    ∀ (l acc : List α), acc.Nodup → (l.foldl insertNew acc).Nodup := by
  intro l
  induction l with
  | nil => intro acc h; simpa using h
  | cons x xs ih =>
    intro acc h
    simp only [List.foldl_cons]
    apply ih
    unfold insertNew
    split
    · exact h
    · rename_i hx
      rw [List.nodup_append]
      exact ⟨h, List.nodup_singleton x, by
        intro a ha hb; simp at hb; subst hb; exact hx ha⟩

theorem mem_foldl_insertNew {α : Type} [DecidableEq α] :
    ∀ (l acc : List α) (a : α), a ∈ l.foldl insertNew acc ↔ a ∈ acc ∨ a ∈ l := by
  intro l
  induction l with
  | nil => intro acc a; simp
  | cons x xs ih =>
    intro acc a
    simp only [List.foldl_cons, ih, List.mem_cons]
    unfold insertNew
    split
    · rename_i hx
      constructor
      · rintro (h | h)
        · exact Or.inl h
        · exact Or.inr (Or.inr h)
      · rintro (h | h | h)
        · exact Or.inl h
        · subst h; exact Or.inl hx
        · exact Or.inr h
    · simp only [List.mem_append, List.mem_singleton]
      tauto

theorem nodup_dedupFirst {α : Type} [DecidableEq α] (l : List α) :
    (dedupFirst l).Nodup :=
  foldl_insertNew_nodup l [] List.nodup_nil

theorem mem_dedupFirst {α : Type} [DecidableEq α] (a : α) (l : List α) :
    a ∈ dedupFirst l ↔ a ∈ l := by
  rw [dedupFirst, mem_foldl_insertNew]
  simp

/-! ## Helper lemmas: breadth-first invalidation -/

theorem bfs_nodup (edges : List (Nat × Nat)) :
    ∀ (fuel : Nat) (frontier visited : List Nat), visited.Nodup →
      (bfs edges fuel frontier visited).Nodup := by
  intro fuel
  induction fuel with
  | zero => intro f v h; simpa [bfs] using h
  | succ n ih =>
    intro f v h
    rw [bfs]
    split
    · exact h
    · apply ih
      rw [List.nodup_append]
      refine ⟨h, nodup_dedupFirst _, ?_⟩
      intro a ha hb
      rw [mem_dedupFirst] at hb
      have h2 := (List.mem_filter.mp hb).2
      simp at h2
      exact h2 ha

/-! ## Helper lemmas: scheduler -/

theorem flush_depth (s : SchedState) : (flush s).depth = s.depth := by
  unfold flush; split <;> rfl

theorem writeCell_depth (cid : Nat) (v : Int) (s : SchedState) :
    (writeCell cid v s).depth = s.depth := by
  simp only [writeCell]
  split
  · rw [flush_depth]
  · rfl

mutual
theorem runCmd_depth : ∀ (c : Cmd) (s : SchedState), (runCmd c s).depth = s.depth
  | Cmd.write cid v, s => writeCell_depth cid v s
  | Cmd.batch body, s => by
      simp only [runCmd]
      have hd : (runCmds body { s with depth := s.depth + 1 }).depth = s.depth + 1 :=
        runCmds_depth body _
      split
      · rw [flush_depth]; simp [hd]
      · simp [hd]

theorem runCmds_depth : ∀ (cs : List Cmd) (s : SchedState), (runCmds cs s).depth = s.depth
  | [], _ => rfl
  | c :: cs, s => by
      simp only [runCmds]
      rw [runCmds_depth cs, runCmd_depth c]
end

theorem writeCell_of_depth_ne (cid : Nat) (v : Int) (s : SchedState) (h : s.depth ≠ 0) :
    writeCell cid v s =
      { s with cells := s.cells.set cid v, dirty := addDirty s.dirty cid } := by
  simp only [writeCell]
  split
  · rename_i h0; exact absurd h0 h
  · rfl

mutual
theorem runCmd_flushLog : ∀ (c : Cmd) (s : SchedState), s.depth ≠ 0 →
    (runCmd c s).flushLog = s.flushLog
  | Cmd.write cid v, s => fun h => by
      simp only [runCmd]
      rw [writeCell_of_depth_ne cid v s h]
  | Cmd.batch body, s => fun h => by
      simp only [runCmd]
      have hd : (runCmds body { s with depth := s.depth + 1 }).depth = s.depth + 1 :=
        runCmds_depth body _
      have hlog : (runCmds body { s with depth := s.depth + 1 }).flushLog = s.flushLog :=
        runCmds_flushLog body _ (by simp)
      split
      · rename_i h0
        simp only [hd] at h0
        simp only [Nat.add_sub_cancel] at h0
        exact absurd h0 h
      · exact hlog

theorem runCmds_flushLog : ∀ (cs : List Cmd) (s : SchedState), s.depth ≠ 0 →
    (runCmds cs s).flushLog = s.flushLog
  | [], _ => fun _ => rfl
  | c :: cs, s => fun h => by
      simp only [runCmds]
      rw [runCmds_flushLog cs _ (by rw [runCmd_depth]; exact h), runCmd_flushLog c s h]
end

theorem runCmds_writes (ws : List (Nat × Int)) : ∀ (s : SchedState), s.depth ≠ 0 →
    runCmds (writesOf ws) s =
      { s with cells := applyWrites s.cells ws,
               dirty := ws.foldl (fun d p => addDirty d p.1) s.dirty } := by
  induction ws with
  | nil => intro s h; simp [writesOf, runCmds, applyWrites]
  | cons p rest ih =>
    intro s h
    obtain ⟨cid, v⟩ := p
    simp only [writesOf, List.map_cons, runCmds, runCmd]
    rw [writeCell_of_depth_ne cid v s h]
    have ih2 := ih { s with cells := s.cells.set cid v, dirty := addDirty s.dirty cid } h
    simp only [writesOf] at ih2
    rw [ih2]
    simp [applyWrites]

theorem addDirty_ne_nil (d : List Nat) (c : Nat) : addDirty d c ≠ [] := by
  unfold addDirty
  split
  · rename_i h
    intro hnil
    subst hnil
    simp at h
  · simp

theorem foldl_addDirty_ne_nil : ∀ (ws : List (Nat × Int)) (d : List Nat),
    d ≠ [] ∨ ws ≠ [] → ws.foldl (fun d p => addDirty d p.1) d ≠ []
  | [], d, h => by
      rcases h with h | h
      · simpa using h
      · exact absurd rfl h
  | p :: rest, d, _ => by
      simp only [List.foldl_cons]
      exact foldl_addDirty_ne_nil rest _ (Or.inl (addDirty_ne_nil d p.1))

theorem batch_writes_eq (init : List Int) (ws : List (Nat × Int)) (hws : ws ≠ []) :
    runCmd (Cmd.batch (writesOf ws)) (initState init) =
      { cells := applyWrites init ws, depth := 0, dirty := [],
        flushLog := [applyWrites init ws] } := by
  simp only [runCmd, initState, Nat.zero_add]
  rw [runCmds_writes ws { cells := init, depth := 1, dirty := [], flushLog := [] } (by simp)]
  have hne : ws.foldl (fun d p => addDirty d p.1) [] ≠ [] :=
    foldl_addDirty_ne_nil ws [] (Or.inr hws)
  simp [flush, List.isEmpty_iff, hne]

theorem batch_nested_eq (init : List Int) (ws : List (Nat × Int)) (hws : ws ≠ []) :
    runCmd (Cmd.batch [Cmd.batch (writesOf ws)]) (initState init) =
      { cells := applyWrites init ws, depth := 0, dirty := [],
        flushLog := [applyWrites init ws] } := by
  simp only [runCmd, runCmds, initState, Nat.zero_add]
  rw [runCmds_writes ws { cells := init, depth := 1 + 1, dirty := [], flushLog := [] } (by simp)]
  have hne : ws.foldl (fun d p => addDirty d p.1) [] ≠ [] :=
    foldl_addDirty_ne_nil ws [] (Or.inr hws)
  simp [flush, List.isEmpty_iff, hne]

/-! ## Helper lemmas: app registry -/

theorem setKey_setKey {C : Type} (l : List (String × C)) (n : String) (c1 c2 : C) :
    setKey (setKey l n c1) n c2 = setKey l n c2 := by
  induction l with
  | nil => simp [setKey]
  | cons kv rest ih =>
    obtain ⟨k, v⟩ := kv
    by_cases hk : k = n
    · subst hk; simp [setKey]
    · simp [setKey, hk, ih]

theorem lookupKey_setKey {C : Type} (l : List (String × C)) (n : String) (c : C) :
    lookupKey (setKey l n c) n = some c := by
  induction l with
  | nil => simp [setKey, lookupKey]
  | cons kv rest ih =>
    obtain ⟨k, v⟩ := kv
    by_cases hk : k = n
    · subst hk; simp [setKey, lookupKey]
    · simp [setKey, lookupKey, hk, ih]

theorem keys_setKey {C : Type} (l : List (String × C)) (n : String) (c : C) :
    (setKey l n c).map Prod.fst = insertNew (l.map Prod.fst) n := by
  induction l with
  | nil => simp [setKey, insertNew]
  | cons kv rest ih =>
    obtain ⟨k, v⟩ := kv
    by_cases hk : k = n
    · subst hk; simp [setKey, insertNew]
    · simp only [setKey, if_neg hk, List.map_cons, ih]
      unfold insertNew
      by_cases hm : n ∈ rest.map Prod.fst
      · simp [hm, hk, Ne.symm hk]
      · simp [hm, hk, Ne.symm hk]

theorem keys_regAll {C : Type} : ∀ (ops : List (String × C)) (app : App C),
    (regAll ops app).components.map Prod.fst =
      (ops.map Prod.fst).foldl insertNew (app.components.map Prod.fst)
  | [], app => rfl
  | (n, c) :: rest, app => by
      simp only [regAll, List.map_cons, List.foldl_cons]
      rw [keys_regAll rest]
      simp [registerComponent, keys_setKey]

/-! ## Helper lemmas: optic capability -/

theorem comp_setFn_isSome {S A B : Type} (o : WOptic A B) (i : WOptic S A) :
    ((WOptic.comp o i).setFn).isSome = (i.setFn.isSome && o.setFn.isSome) := by
  cases hi : i.setFn <;> cases ho : o.setFn <;> simp [WOptic.comp, hi, ho]

theorem hasFold_not_writable {U : Type} (e : OpticExpr U) :
    (!e.hasFold || (OpticExpr.build e).setFn.isNone) = true := by
  induction e with
  | lensE g s => simp [OpticExpr.hasFold]
  | foldE g => simp [OpticExpr.hasFold, OpticExpr.build, mkFold]
  | compE o i iho ihi =>
    simp only [OpticExpr.hasFold, OpticExpr.build]
    by_cases hho : o.hasFold = true
    · have hnone : (OpticExpr.build o).setFn = none := by
        simpa [hho] using iho
      cases hi2 : (OpticExpr.build i).setFn <;>
        simp [WOptic.comp, hnone, hi2, hho]
    · by_cases hhi : i.hasFold = true
      · have hnone : (OpticExpr.build i).setFn = none := by
          simpa [hhi] using ihi
        cases ho2 : (OpticExpr.build o).setFn <;>
          simp [WOptic.comp, hnone, ho2, hhi]
      · simp only [Bool.not_eq_true] at hho hhi
        simp [hho, hhi]

/-! ## Claim theorems -/

/-- C1.  Glitch freedom and dependency order: the invalidation closure of
any cell in any dependency graph lists each subscriber at most once (so
within one flush, which recomputes exactly the listed subscribers in list
order, no subscriber recomputes more than once); and for a cell `c` with
dependent `d1` and second-level dependent `d2` (depending on `c` through
`d1`), invalidating `c` recomputes exactly `d1` then `d2`, each once, with
`d1` before `d2`. -/
theorem claim_glitch_freedom :
    (∀ (edges : List (Nat × Nat)) (c : Nat), (invalidate edges c).Nodup) ∧
    (∀ (c d1 d2 : Nat), c ≠ d1 → c ≠ d2 → d1 ≠ d2 →
      invalidate [(c, d1), (d1, d2)] c = [d1, d2]) := by
  constructor
  · intro edges c
    exact bfs_nodup edges _ _ _ List.nodup_nil
  · intro c d1 d2 h1 h2 h3
    have b1 : (d1 == c) = false := by simp [Ne.symm h1]
    have b2 : (d2 == c) = false := by simp [Ne.symm h2]
    have b3 : (d2 == d1) = false := by simp [Ne.symm h3]
    have b4 : (c == d1) = false := by simp [h1]
    have b5 : (c == d2) = false := by simp [h2]
    have b6 : (d1 == d2) = false := by simp [h3]
    simp [invalidate, bfs, subsOf, dedupFirst, insertNew,
      b1, b2, b3, b4, b5, b6, h1, h2, h3, Ne.symm h1, Ne.symm h2, Ne.symm h3]

/-- Witness for C1 at the concrete graph `0 → 1 → 2`. -/
theorem claim_glitch_freedom_witness :
    (invalidate [(0, 1), (1, 2)] 0).Nodup ∧ invalidate [(0, 1), (1, 2)] 0 = [1, 2] :=
  ⟨claim_glitch_freedom.1 [(0, 1), (1, 2)] 0,
   claim_glitch_freedom.2 0 1 2 (by decide) (by decide) (by decide)⟩

/-- C2.  `createCell(0)` followed by `write(cell, 1)` makes `read` return
`1`; the version goes from 0 to 1 on that write; the version strictly
increases on every write of any cell; and it still increments when the
written value equals the old value. -/
theorem claim_cell_write_version :
    read (write (createCell (0 : Int)) (Next.val 1)) = 1 ∧
    (createCell (0 : Int)).version = 0 ∧
    (write (createCell (0 : Int)) (Next.val 1)).version = 1 ∧
    (∀ (T : Type) (c : Cell T) (n : Next T), c.version < (write c n).version) ∧
    (write (createCell (0 : Int)) (Next.val 0)).version = 1 := by
  refine ⟨rfl, rfl, rfl, ?_, rfl⟩
  intro T c n
  simp [write]

/-- C3.  `write` accepts both forms: with an updater function `f` it stores
`f(prev)`, with a plain value `v` it stores `v`; in both forms the stored
value is what a subsequent `read` returns. -/
theorem claim_write_forms :
    ∀ (T : Type) (c : Cell T) (f : T → T) (v : T),
      read (write c (Next.upd f)) = f (read c) ∧ read (write c (Next.val v)) = v :=
  fun _ _ _ _ => ⟨rfl, rfl⟩

/-- C4.  Batch collapsing: a `batch` of `N ≥ 1` writes from a clean
scheduler state produces exactly one flush, during which the dependent that
reads all cells recomputes exactly once (the single `flushLog` entry)
observing all final values; a doubly nested batch behaves identically (only
the outermost call flushes); and in general no command ever flushes while a
batch is open (`depth ≠ 0`). -/
theorem claim_batch_collapsing :
    (∀ (init : List Int) (ws : List (Nat × Int)), ws ≠ [] →
      runCmd (Cmd.batch (writesOf ws)) (initState init) =
        { cells := applyWrites init ws, depth := 0, dirty := [],
          flushLog := [applyWrites init ws] }) ∧
    (∀ (init : List Int) (ws : List (Nat × Int)), ws ≠ [] →
      runCmd (Cmd.batch [Cmd.batch (writesOf ws)]) (initState init) =
        { cells := applyWrites init ws, depth := 0, dirty := [],
          flushLog := [applyWrites init ws] }) ∧
    (∀ (c : Cmd) (s : SchedState), s.depth ≠ 0 →
      (runCmd c s).flushLog = s.flushLog) :=
  ⟨batch_writes_eq, batch_nested_eq, runCmd_flushLog⟩

/-- Witness for C4: two writes in one batch over cells `[0, 0]` flush once
with both final values visible. -/
theorem claim_batch_collapsing_witness :
    runCmd (Cmd.batch (writesOf [(0, 5), (1, 7)])) (initState [0, 0]) =
      { cells := [5, 7], depth := 0, dirty := [], flushLog := [[5, 7]] } :=
  (claim_batch_collapsing.1 [0, 0] [(0, 5), (1, 7)] (by decide)).trans (by decide)

/-- C5.  Optic composition is associative on `get`: for all Lenses and
every source, composing `(L1 ∘ L2) ∘ L3` and `L1 ∘ (L2 ∘ L3)` read the same
focused value. -/
theorem claim_compose_assoc :
    ∀ (S A B D : Type) (L1 : Lens B D) (L2 : Lens A B) (L3 : Lens S A) (s : S),
      ((L1.comp L2).comp L3).get s = (L1.comp (L2.comp L3)).get s :=
  fun _ _ _ _ _ _ _ _ => rfl

/-- C6.  Lens writes go through and frame the rest of the source: the Lens
focused on field `a` maps `{a:1,b:2}` with new focus `5` to `{a:5,b:2}`,
and for every source and new focus the write succeeds, stores the new
focus, and leaves field `b` unchanged. -/
theorem claim_lens_frame :
    lensA.set { a := 1, b := 2 } 5 = { a := 5, b := 2 } ∧
    ∀ (s : RecAB) (v : Int),
      (lensA.set s v).a = v ∧ (lensA.set s v).b = s.b ∧
      lensA.get (lensA.set s v) = v :=
  ⟨rfl, fun _ _ => ⟨rfl, rfl, rfl⟩⟩

/-- C7 counterexample.  The claim says that after an absent read on the
empty array, a `set` leaves the array empty; but the documented setter
(`if (newFirst) state.notifications[0] = newFirst`) checks only the NEW
value, so setting the present value `7` after the absent read inserts it:
the array becomes `[7]`, not `[]`. -/
theorem claim_prism_absent_counterexample :
    prismGet ([] : List Int) = none ∧
    prismSet ([] : List Int) (some 7) = [7] ∧
    prismSet ([] : List Int) (some 7) ≠ [] :=
  ⟨rfl, rfl, by decide⟩

/-- C7 amended.  For a Prism focused on `notifications[0]`: on the empty
array `get` signals absent; a `set` is a no-op exactly when the NEW value
is itself absent (null); a present new value is written to index 0 even
when the array was empty (insertion). -/
theorem claim_prism_absent_amended :
    (∀ (V : Type), prismGet ([] : List V) = none) ∧
    (∀ (V : Type) (l : List V), prismSet l none = l) ∧
    (∀ (V : Type) (v : V), prismSet ([] : List V) (some v) = [v]) :=
  ⟨fun _ => rfl, fun _ _ => rfl, fun _ _ => rfl⟩

/-- C8.  Traversal update is element-wise and structure-preserving: for
every traversal source and update function the result has the same length,
the element at every position is the update of the original element (same
order), and the concrete scenario `[1,2,3]` with `x => x*2` yields
`[2,4,6]`. -/
theorem claim_traversal_elementwise :
    (∀ (A : Type) (s : ApiState A) (f : A → A),
      (traversalUpdate s f).users.length = s.users.length ∧
      ∀ (i : Nat), (traversalUpdate s f).users.get? i = (s.users.get? i).map f) ∧
    traversalUpdate { users := ([1, 2, 3] : List Int) } (fun x => x * 2) =
      { users := [2, 4, 6] } := by
  constructor
  · intro A s f
    refine ⟨by simp [traversalUpdate], ?_⟩
    intro i
    simp [traversalUpdate]
  · decide

/-- C9.  Read-only propagation: calling `set` on a Fold fails with
`ReadOnlyOpticError`; any composition chain containing a Fold builds an
optic whose setter is absent; and the write capability of a composition is
the conjunction (intersection) of the two halves' capabilities, never the
union. -/
theorem claim_readonly_propagation :
    (∀ (S A : Type) (g : S → A) (s : S) (v : A),
      trySet (mkFold g) s v = Except.error OpticError.readOnlyOpticError) ∧
    (∀ (U : Type) (e : OpticExpr U),
      (!e.hasFold || (OpticExpr.build e).setFn.isNone) = true) ∧
    (∀ (S A B : Type) (o : WOptic A B) (i : WOptic S A),
      ((WOptic.comp o i).setFn).isSome = (i.setFn.isSome && o.setFn.isSome)) :=
  ⟨fun _ _ _ _ _ => rfl, fun _ e => hasFold_not_writable e,
   fun _ _ _ o i => comp_setFn_isSome o i⟩

/-- C10.  The app keeps components in a name-keyed, insertion-ordered map:
registering the same name twice silently replaces the earlier component
(the map is unchanged by the earlier registration, and lookup returns the
latest component); after any registration sequence the key list is exactly
the distinct names in first-registration order; and `mount` renders exactly
one instance per distinct registered name. -/
theorem claim_app_registry :
    (∀ (C : Type) (app : App C) (n : String) (c1 c2 : C),
      registerComponent (registerComponent app n c1) n c2 =
        registerComponent app n c2) ∧
    (∀ (C : Type) (app : App C) (n : String) (c : C),
      lookupKey (registerComponent app n c).components n = some c) ∧
    (∀ (C : Type) (ops : List (String × C)),
      (regAll ops createApp).components.map Prod.fst =
        dedupFirst (ops.map Prod.fst)) ∧
    (∀ (C : Type) (ops : List (String × C)),
      (mount (regAll ops createApp)).length =
        (dedupFirst (ops.map Prod.fst)).length) := by
  refine ⟨?_, ?_, ?_, ?_⟩
  · intro C app n c1 c2
    simp [registerComponent, setKey_setKey]
  · intro C app n c
    simp [registerComponent, lookupKey_setKey]
  · intro C ops
    rw [keys_regAll ops createApp]
    rfl
  · intro C ops
    have h := keys_regAll ops (createApp (C := C))
    have hlen : ((regAll ops createApp).components.map Prod.fst).length =
        (dedupFirst (ops.map Prod.fst)).length := by
      rw [h]; rfl
    simpa [mount] using hlen

end Refract
